import Mathlib

/-!
Verification of the net-frequency suffix-tree implementation
(src/suffix_tree.hpp, src/suffix_tree.cpp, src/main.cpp).

The C++ program builds a suffix tree of a sentinel-terminated byte string
with Ukkonen's online algorithm, enriched with suffix links and reverse
(Weiner) links, and computes net frequencies of substrings, pointwise
(single_nf) and in bulk (all_nf).

Shallow embedding: nodes live in arenas indexed by natural numbers
(internal nodes in one arena, leaves in another), pointers become indices,
child maps become association lists (key = byte as Nat, value = arena
index), and the mutating C++ functions become state-passing Lean
functions.  The uint32_t net-frequency counters are modelled as Nat with
explicit arithmetic modulo 2^32.  Unbounded C++ loops and recursions are
modelled with explicit fuel; the fuel bounds chosen are generous enough
for every execution the C++ program performs on well-formed trees.
-/

set_option maxRecDepth 100000

/-- 2^32: modulus of the uint32_t arithmetic used for the nf counters. -/
def U32M : Nat := 4294967296

/-! ### Association lists (model of std::unordered_map<char, T*>) -/

/-- Lookup in an association list (map.find / map.at). -/
def lookupA : List (Nat × Nat) → Nat → Option Nat
  | [], _ => none
  | (a, b) :: t, k => if a = k then some b else lookupA t k

/-- Key membership (map.contains). -/
def containsA (l : List (Nat × Nat)) (k : Nat) : Bool :=
  (lookupA l k).isSome

/-- Insert-or-assign (map operator[] followed by assignment). -/
def insertA : List (Nat × Nat) → Nat → Nat → List (Nat × Nat)
  | [], k, v => [(k, v)]
  | (a, b) :: t, k, v => if a = k then (k, v) :: t else (a, b) :: insertA t k v

/-- Erase a key (map.erase). -/
def eraseA : List (Nat × Nat) → Nat → List (Nat × Nat)
  | [], _ => []
  | (a, b) :: t, k => if a = k then t else (a, b) :: eraseA t k

/-! ### The tree state -/

/-- SuffixTree::InternalNode.  `stop` is the field called `end` in the
source (a reserved word in Lean); the incoming edge label is
txt[start .. stop).  Children maps are split into internal children and
leaf children exactly as in the source. -/
structure InternalNode where
  start : Nat
  stop : Nat
  ichildren : List (Nat × Nat)
  lchildren : List (Nat × Nat)
  slink : Option Nat
  wlinks : List Nat
  nf : Nat
  deriving Repr, DecidableEq

/-- The whole SuffixTree object: the input text, the two node arenas
(index 0 of `nodes` is the root), and the private Ukkonen state.
A leaf node stores only its `start`; its edge end is the shared
`global_end` (LeafNode::end_ptr points at it). -/
structure SuffixTree where
  txt : List Nat
  nodes : List InternalNode
  leaves : List Nat
  need_link : Option Nat
  global_end : Nat
  remainder : Nat
  active_node : Nat
  active_edge : Nat
  active_length : Nat
  deriving Repr, DecidableEq

/-- Default node used for out-of-range arena accesses (a C++ dereference
of a dangling pointer, which never happens in the real executions). -/
def defaultNode : InternalNode :=
  { start := 0, stop := 0, ichildren := [], lchildren := [],
    slink := none, wlinks := [], nf := 0 }

/-- Read an internal node from the arena. -/
def getI (st : SuffixTree) (i : Nat) : InternalNode :=
  st.nodes.getD i defaultNode

/-- Write an internal node back to the arena. -/
def setI (st : SuffixTree) (i : Nat) (n : InternalNode) : SuffixTree :=
  { st with nodes := st.nodes.set i n }

/-- Update only the nf field of node `i`. -/
def modifyNf (st : SuffixTree) (i : Nat) (f : Nat → Nat) : SuffixTree :=
  setI st i { getI st i with nf := f (getI st i).nf }

/-- txt[i] (the byte at position i). -/
def chr (st : SuffixTree) (i : Nat) : Nat :=
  st.txt.getD i 0

/-- SuffixTree::InternalNode::edge_length(): end - start. -/
def edge_length_internal (st : SuffixTree) (i : Nat) : Nat :=
  (getI st i).stop - (getI st i).start

/-- Start index of leaf `j`. -/
def leafStart (st : SuffixTree) (j : Nat) : Nat :=
  st.leaves.getD j 0

/-- SuffixTree::LeafNode::edge_length(): *end_ptr - start. -/
def edge_length_leaf (st : SuffixTree) (j : Nat) : Nat :=
  st.global_end - leafStart st j

/-! ### Construction (Ukkonen's algorithm) -/

/-- SuffixTree::add_links.  Wires the pending suffix link from
`need_link` to `node`, records the reverse (Weiner) link on `node`
with a membership test (the source checks a by-value copy of the
vector, which holds the same elements), then makes `node` the new
`need_link`. -/
def add_links (st : SuffixTree) (node : Nat) : SuffixTree :=
  let st1 :=
    match st.need_link with
    | none => st
    | some nl =>
        let st2 := setI st nl { getI st nl with slink := some node }
        if (getI st2 node).wlinks.contains nl then st2
        else setI st2 node
          { getI st2 node with wlinks := (getI st2 node).wlinks ++ [nl] }
  { st1 with need_link := some node }

/-- The part of SuffixTree::extend after an insertion: decrement
`remainder` and move the active point (lines 254-270 of the source).
In the source the new active edge is `k - remainder + 1` in uint32_t
arithmetic; `k + 1 - remainder` is the same value whenever
remainder <= k + 1, which holds in every reachable state. -/
def stepActive (k : Nat) (st : SuffixTree) : SuffixTree :=
  let st := { st with remainder := st.remainder - 1 }
  if st.active_node = 0 && decide (0 < st.active_length) then
    { st with active_length := st.active_length - 1,
              active_edge := k + 1 - st.remainder }
  else
    match (getI st st.active_node).slink with
    | some v => { st with active_node := v }
    | none => { st with active_node := 0 }

/-- The body of the `while (remainder > 0)` loop of SuffixTree::extend,
with explicit fuel (the C++ loop terminates by the algorithm's
invariants).  Rule 3 returns without recursing (the break).  The two
branches the source guards with assert (a key present in both child
maps, or a walk-down into a leaf) return the state unchanged; they are
unreachable in the program's executions. -/
def extendLoop : Nat → Nat → SuffixTree → SuffixTree
  | 0, _, st => st
  | fuel + 1, k, st =>
    if st.remainder = 0 then st
    else
      let st := if st.active_length = 0 then { st with active_edge := k } else st
      let c := chr st st.active_edge
      let an := getI st st.active_node
      match lookupA an.lchildren c, lookupA an.ichildren c with
      | none, none =>
          -- rule 2b: attach a fresh leaf to active_node
          let leafIdx := st.leaves.length
          let st := { st with leaves := st.leaves ++ [k] }
          let st := setI st st.active_node
            { getI st st.active_node with
              lchildren := insertA (getI st st.active_node).lchildren c leafIdx }
          let st := add_links st st.active_node
          extendLoop fuel k (stepActive k st)
      | lP, iP =>
        let isLeaf := lP.isSome
        let len := match lP with
          | some lj => edge_length_leaf st lj
          | none => edge_length_internal st (iP.getD 0)
        if st.active_length ≥ len then
          -- trick 1: walk down
          match iP with
          | some ij =>
              extendLoop fuel k
                { st with active_edge := st.active_edge + len,
                          active_length := st.active_length - len,
                          active_node := ij }
          | none => st
        else
          let prev_start := match lP with
            | some lj => leafStart st lj
            | none => (getI st (iP.getD 0)).start
          if chr st (prev_start + st.active_length) = chr st k then
            -- rule 3: show stopper
            let st := { st with active_length := st.active_length + 1 }
            add_links st st.active_node
          else
            -- rule 2a: split the edge
            if isLeaf then
              match lP with
              | some lj =>
                let ns := leafStart st lj + st.active_length
                let st := { st with leaves := st.leaves.set lj ns }
                let m := st.nodes.length
                let newLeafIdx := st.leaves.length
                let mNode : InternalNode :=
                  { start := prev_start, stop := ns,
                    ichildren := [],
                    lchildren := insertA (insertA [] (chr st k) newLeafIdx) (chr st ns) lj,
                    slink := none, wlinks := [], nf := 0 }
                let st := { st with nodes := st.nodes ++ [mNode],
                                    leaves := st.leaves ++ [k] }
                let st := setI st st.active_node
                  { getI st st.active_node with
                    ichildren := insertA (getI st st.active_node).ichildren c m,
                    lchildren := eraseA (getI st st.active_node).lchildren c }
                let st := add_links st m
                extendLoop fuel k (stepActive k st)
              | none => st
            else
              match iP with
              | some ij =>
                let ns := (getI st ij).start + st.active_length
                let st := setI st ij { getI st ij with start := ns }
                let m := st.nodes.length
                let newLeafIdx := st.leaves.length
                let mNode : InternalNode :=
                  { start := prev_start, stop := ns,
                    ichildren := insertA [] (chr st ns) ij,
                    lchildren := insertA [] (chr st k) newLeafIdx,
                    slink := none, wlinks := [], nf := 0 }
                let st := { st with nodes := st.nodes ++ [mNode],
                                    leaves := st.leaves ++ [k] }
                let st := setI st st.active_node
                  { getI st st.active_node with
                    ichildren := insertA (getI st st.active_node).ichildren c m }
                let st := add_links st m
                extendLoop fuel k (stepActive k st)
              | none => st

/-- SuffixTree::extend(k): one phase of the construction. -/
def extend (st : SuffixTree) (k : Nat) : SuffixTree :=
  let st := { st with need_link := none, remainder := st.remainder + 1 }
  let st := extendLoop ((st.txt.length + 2) * (st.txt.length + 2)) k st
  { st with global_end := st.global_end + 1 }

/-- The SuffixTree constructor: initialise the state with a root node
(start = end = 0) and run one phase per input byte. -/
def buildSuffixTree (txt : List Nat) : SuffixTree :=
  (List.range txt.length).foldl extend
    { txt := txt, nodes := [defaultNode], leaves := [], need_link := none,
      global_end := 0, remainder := 0, active_node := 0, active_edge := 0,
      active_length := 0 }

/-! ### Locator -/

/-- The loop of SuffixTree::find_internal_node, with fuel.  `none` means
the fuel ran out; `find_internal_node` supplies fuel |s| + 1, which is
shown sufficient (theorem for claim C9) whenever every internal child
edge has positive length. -/
def findAux (st : SuffixTree) (s : List Nat) : Nat → Nat → Nat → Option (Option Nat × Nat)
  | 0, _, _ => none
  | fuel + 1, node, i =>
    if s.length ≤ i then some (some node, i - s.length)
    else
      match lookupA (getI st node).ichildren (s.getD i 0) with
      | some child =>
          let len := min (edge_length_internal st child) (s.length - i)
          if (s.drop i).take len = (st.txt.drop (getI st child).start).take len
          then findAux st s fuel child (i + edge_length_internal st child)
          else some (none, 0)
      | none =>
          if containsA (getI st node).lchildren (s.getD i 0)
          then some (none, 1)
          else some (none, 0)

/-- SuffixTree::find_internal_node. -/
def find_internal_node (st : SuffixTree) (s : List Nat) : Option Nat × Nat :=
  (findAux st s (s.length + 1) 0 0).getD (none, 0)

/-! ### Net frequency: single query -/

/-- SuffixTree::single_nf.  The local uint32_t counter starts at the
number of leaf children (cast from size_t, hence mod 2^32) and each
decrement is uint32_t wrap-around arithmetic. -/
def single_nf (st : SuffixTree) (s : List Nat) : Nat :=
  match find_internal_node st s with
  | (none, _) => 0
  | (some S, left) =>
    if left ≠ 0 then 0
    else
      let nf0 := (getI st S).lchildren.length % U32M
      if nf0 = 0 then 0
      else
        (getI st S).wlinks.foldl (fun nf xS =>
          (getI st xS).lchildren.foldl (fun nf p =>
            if containsA (getI st S).lchildren p.1
            then (nf + (U32M - 1)) % U32M else nf) nf) nf0

/-! ### Net frequency: all branching substrings -/

/-- The decrement loop of the `process` lambda of SuffixTree::all_nf:
follow the suffix link of xS and decrement the target's nf once for
every leaf-child key of xS that also keys a leaf child of the target.
On a node with leaf children and no suffix link the C++ dereferences a
null pointer; that never happens on trees produced by the construction,
and the model performs no decrement there. -/
def processDecs (st : SuffixTree) (xS : Nat) : SuffixTree :=
  match (getI st xS).slink with
  | none => st
  | some S =>
      (getI st xS).lchildren.foldl (fun st2 p =>
        if containsA (getI st2 S).lchildren p.1
        then modifyNf st2 S (fun nf => (nf + (U32M - 1)) % U32M)
        else st2) st

/-- The body of the `process` lambda of SuffixTree::all_nf for one node
(without the recursion into internal children): if the node has leaf
children, add their number to its nf and then run the decrement loop on
its suffix link target. -/
def processBody (st : SuffixTree) (xS : Nat) : SuffixTree :=
  if (getI st xS).lchildren.isEmpty then st
  else
    processDecs
      (modifyNf st xS (fun nf => (nf + (getI st xS).lchildren.length) % U32M)) xS

/-- The `process` lambda of SuffixTree::all_nf (recursive, with fuel). -/
def processNode : Nat → SuffixTree → Nat → SuffixTree
  | 0, st, _ => st
  | fuel + 1, st, xS =>
    let st1 := processBody st xS
    (getI st1 xS).ichildren.foldl (fun st2 p => processNode fuel st2 p.2) st1

/-- The `report` lambda of SuffixTree::all_nf (recursive, with fuel):
collect (substring, nf) pairs for nodes with nonzero nf.  The substring
printed is txt.substr(start_pos, string_depth). -/
def reportNode : Nat → SuffixTree → Nat → Nat → Nat → List (List Nat × Nat)
  | 0, _, _, _, _ => []
  | fuel + 1, st, S, sp, d =>
    (if (getI st S).nf ≠ 0 then [((st.txt.drop sp).take d, (getI st S).nf)] else [])
      ++ (getI st S).ichildren.foldl
          (fun acc p => acc ++ reportNode fuel st p.2 sp (d + edge_length_internal st p.2)) []

/-- SuffixTree::all_nf: the accumulation pass over all internal nodes
below the root, then the report pass.  Returns the mutated tree and the
emitted (substring, count) sequence.  The fuel bounds the recursion
depth by the number of internal nodes, which is enough on every tree
whose internal nodes form a tree rooted at the root. -/
def all_nf (st : SuffixTree) : SuffixTree × List (List Nat × Nat) :=
  let F := st.nodes.length + 1
  let st2 := (getI st 0).ichildren.foldl (fun s p => processNode F s p.2) st
  let out := (getI st2 0).ichildren.foldl
    (fun acc p =>
      acc ++ reportNode F st2 p.2 (getI st2 p.2).start (edge_length_internal st2 p.2)) []
  (st2, out)

/-! ### Specification-side definitions -/

/-- Keys of a child map. -/
def keysOf (l : List (Nat × Nat)) : List Nat :=
  l.map Prod.fst

/-- Modelled from the spec: the net frequency of the branching substring
represented by internal node S, "formally, |right-extensions of S via
leaf children| minus the count of bytes y such that both Sy is a leaf
child of S and xSy is a leaf child of some xS in weiner_links(S)": the
number of distinct bytes keying leaf children of S, minus one for each
pair (xS, y) with xS in S.weiner_links and y keying a leaf child of
both xS and S. -/
def nfFormula (st : SuffixTree) (S : Nat) : Nat :=
  (keysOf (getI st S).lchildren).dedup.length -
    ((getI st S).wlinks.dedup.map (fun xS =>
      ((keysOf (getI st xS).lchildren).dedup.filter (fun y =>
        (keysOf (getI st S).lchildren).contains y)).length)).sum

/-- s occurs in t (s is a contiguous substring of t). -/
def occursIn (s t : List Nat) : Bool :=
  (List.range (t.length + 1)).any (fun i => (t.drop i).take s.length == s)

/-- Concrete texts used by the concrete claims.
"aaaa$" as bytes. -/
def txtAAAA : List Nat := [97, 97, 97, 97, 36]

/-- "abc$" as bytes. -/
def txtABC : List Nat := [97, 98, 99, 36]

/-- "#abcdabybcdbxbcyabcd$" as bytes (the text of src/main.cpp). -/
def txtMain : List Nat :=
  [35, 97, 98, 99, 100, 97, 98, 121, 98, 99, 100, 98, 120, 98, 99, 121, 97, 98, 99, 100, 36]

/-! ### Definitions used by the proofs -/

/-- A node with its nf counter blanked; two states are related by
`NfOnly` when they agree on everything except nf counters. -/
def eraseNf (n : InternalNode) : InternalNode :=
  { n with nf := 0 }

/-- st2 differs from st at most in the nf fields of its nodes. -/
def NfOnly (st st2 : SuffixTree) : Prop :=
  ∀ j, eraseNf (getI st2 j) = eraseNf (getI st j)

/-- Sequential processing of a list of internal nodes (the accumulation
pass as a fold over the preorder visit sequence). -/
def processList (L : List Nat) (st : SuffixTree) : SuffixTree :=
  L.foldl processBody st

/-- The preorder visit sequence of the `process` recursion started at
node i, with the same fuel discipline as `processNode`. -/
def visitL : Nat → SuffixTree → Nat → List Nat
  | 0, _, _ => []
  | fuel + 1, st, i =>
    i :: (getI st i).ichildren.foldl (fun acc p => acc ++ visitL fuel st p.2) []

/-- The full visit sequence of the accumulation pass of all_nf. -/
def visitOrder (st : SuffixTree) : List Nat :=
  (getI st 0).ichildren.foldl
    (fun acc p => acc ++ visitL (st.nodes.length + 1) st p.2) []

/-- Number of decrements the processing of node v sends to node j:
the number of leaf-child entries of v whose key is also a leaf-child
key of j. -/
def decCnt (st : SuffixTree) (v j : Nat) : Nat :=
  (getI st v).lchildren.countP (fun p => containsA (getI st j).lchildren p.1)

/-- Total additive contribution (mod 2^32, with a decrement represented
as adding 2^32 - 1) of processing node v to the nf counter of node j. -/
def contrib (st : SuffixTree) (j v : Nat) : Nat :=
  (if v = j then
    (if (getI st j).lchildren = [] then 0 else (getI st j).lchildren.length)
   else 0)
  + (if (getI st v).slink = some j then (U32M - 1) * decCnt st v j else 0)

/-! ### Sanity examples -/

example : lookupA [(1, 2), (3, 4)] 3 = some 4 := by decide

example : insertA [(1, 2), (3, 4)] 3 9 = [(1, 2), (3, 9)] := by decide

/-! ### Arena access lemmas -/

theorem getD_set_self {α : Type} (l : List α) (i : Nat) (a d : α) :
    (l.set i a).getD i d = if i < l.length then a else d := by
  induction l generalizing i with
  | nil => simp [List.getD]
  | cons h t ih =>
      cases i with
      | zero => simp [List.set, List.getD]
      | succ n => simpa [List.set, List.getD] using ih n

theorem getD_set_of_ne {α : Type} (l : List α) {i j : Nat} (h : i ≠ j) (a d : α) :
    (l.set i a).getD j d = l.getD j d := by
  induction l generalizing i j with
  | nil => simp
  | cons x t ih =>
      cases i with
      | zero =>
          cases j with
          | zero => exact absurd rfl h
          | succ m => simp [List.set, List.getD]
      | succ n =>
          cases j with
          | zero => simp [List.set, List.getD]
          | succ m => simpa [List.set, List.getD] using ih (fun hnm => h (by omega))

theorem getD_default_of_le {α : Type} (l : List α) (d : α) :
    ∀ {i : Nat}, l.length ≤ i → l.getD i d = d := by
  induction l with
  | nil => intro i _; simp [List.getD]
  | cons x t ih =>
      intro i hi
      cases i with
      | zero => simp at hi
      | succ n => simpa [List.getD] using ih (by simpa using hi)

theorem lchildren_ne_nil_lt (st : SuffixTree) (v : Nat)
    (h : (getI st v).lchildren ≠ []) : v < st.nodes.length := by
  by_contra hv
  have : getI st v = defaultNode := getD_default_of_le _ _ (by omega)
  rw [this] at h
  exact h rfl

/-! ### NfOnly: mutations of the accumulation pass touch only nf -/

theorem nfOnly_refl (st : SuffixTree) : NfOnly st st :=
  fun _ => rfl

theorem nfOnly_trans {st st2 st3 : SuffixTree}
    (h1 : NfOnly st st2) (h2 : NfOnly st2 st3) : NfOnly st st3 :=
  fun j => (h2 j).trans (h1 j)

theorem nfOnly_ich {st st2 : SuffixTree} (h : NfOnly st st2) (j : Nat) :
    (getI st2 j).ichildren = (getI st j).ichildren := by
  have := congrArg InternalNode.ichildren (h j)
  simpa [eraseNf] using this

theorem nfOnly_lch {st st2 : SuffixTree} (h : NfOnly st st2) (j : Nat) :
    (getI st2 j).lchildren = (getI st j).lchildren := by
  have := congrArg InternalNode.lchildren (h j)
  simpa [eraseNf] using this

theorem nfOnly_slink {st st2 : SuffixTree} (h : NfOnly st st2) (j : Nat) :
    (getI st2 j).slink = (getI st j).slink := by
  have := congrArg InternalNode.slink (h j)
  simpa [eraseNf] using this

theorem nfOnly_modifyNf (st : SuffixTree) (i : Nat) (f : Nat → Nat) :
    NfOnly st (modifyNf st i f) := by
  intro j
  unfold modifyNf setI getI
  by_cases hij : i = j
  · subst hij
    by_cases hlen : i < st.nodes.length
    · rw [getD_set_self, if_pos hlen]; simp [eraseNf]
    · rw [getD_set_self, if_neg hlen, getD_default_of_le _ _ (by omega)]
  · rw [getD_set_of_ne _ hij]

theorem nfOnly_foldl {β : Type} (step : SuffixTree → β → SuffixTree)
    (hstep : ∀ st2 x, NfOnly st2 (step st2 x)) :
    ∀ (L : List β) (st0 : SuffixTree), NfOnly st0 (L.foldl step st0) := by
  intro L
  induction L with
  | nil => intro st0; exact nfOnly_refl st0
  | cons x t ih =>
      intro st0
      exact nfOnly_trans (hstep st0 x) (ih (step st0 x))

theorem nfOnly_processDecs (st : SuffixTree) (v : Nat) :
    NfOnly st (processDecs st v) := by
  unfold processDecs
  cases hsl : (getI st v).slink with
  | none => exact nfOnly_refl st
  | some S =>
      exact nfOnly_foldl
        (fun st2 (p : Nat × Nat) =>
          if containsA (getI st2 S).lchildren p.1
          then modifyNf st2 S (fun nf => (nf + (U32M - 1)) % U32M)
          else st2)
        (fun st2 p => by
          dsimp only
          by_cases hc : containsA (getI st2 S).lchildren p.1
          · rw [if_pos hc]; exact nfOnly_modifyNf st2 _ _
          · rw [if_neg hc]; exact nfOnly_refl st2) _ _

theorem nfOnly_processBody (st : SuffixTree) (v : Nat) :
    NfOnly st (processBody st v) := by
  unfold processBody
  by_cases he : (getI st v).lchildren.isEmpty
  · rw [if_pos he]; exact nfOnly_refl st
  · rw [if_neg he]
    exact nfOnly_trans (nfOnly_modifyNf st v _) (nfOnly_processDecs _ v)

theorem nfOnly_processNode :
    ∀ (fuel : Nat) (st : SuffixTree) (v : Nat), NfOnly st (processNode fuel st v) := by
  intro fuel
  induction fuel with
  | zero => intro st v; exact nfOnly_refl st
  | succ f ih =>
      intro st v
      unfold processNode
      exact nfOnly_trans (nfOnly_processBody st v)
        (nfOnly_foldl (fun st2 (p : Nat × Nat) => processNode f st2 p.2)
          (fun st2 p => ih st2 p.2) _ _)

theorem nfOnly_processList (L : List Nat) (st : SuffixTree) :
    NfOnly st (processList L st) :=
  nfOnly_foldl _ (fun st2 v => nfOnly_processBody st2 v) L st

/-! ### The accumulation pass as a fold over the preorder visit list -/

theorem foldl_append_eq_join {β γ : Type} (g : β → List γ) :
    ∀ (L : List β) (acc : List γ),
      L.foldl (fun a x => a ++ g x) acc = acc ++ (L.map g).flatten := by
  intro L
  induction L with
  | nil => intro acc; simp
  | cons x t ih => intro acc; simp [ih]

theorem processList_append (L1 L2 : List Nat) (st : SuffixTree) :
    processList (L1 ++ L2) st = processList L2 (processList L1 st) := by
  unfold processList
  rw [List.foldl_append]

theorem visitL_congr :
    ∀ (fuel : Nat) {st st2 : SuffixTree}, NfOnly st st2 →
      ∀ (i : Nat), visitL fuel st2 i = visitL fuel st i := by
  intro fuel
  induction fuel with
  | zero => intro st st2 _ i; rfl
  | succ f ih =>
      intro st st2 h i
      unfold visitL
      rw [nfOnly_ich h]
      have aux : ∀ (L : List (Nat × Nat)) (acc : List Nat),
          L.foldl (fun a p => a ++ visitL f st2 p.2) acc
            = L.foldl (fun a p => a ++ visitL f st p.2) acc := by
        intro L
        induction L with
        | nil => intro acc; rfl
        | cons q t iht =>
            intro acc
            simp only [List.foldl_cons]
            rw [ih h, iht]
      rw [aux]

theorem foldl_processNode_eq (f : Nat)
    (IH : ∀ (st : SuffixTree) (v : Nat),
      processNode f st v = processList (visitL f st v) st) :
    ∀ (L : List (Nat × Nat)) (st stb : SuffixTree), NfOnly st stb →
      L.foldl (fun s p => processNode f s p.2) stb
        = processList (L.foldl (fun a p => a ++ visitL f st p.2) []) stb := by
  intro L
  induction L with
  | nil => intro st stb _; rfl
  | cons q t ih =>
      intro st stb h
      simp only [List.foldl_cons]
      have hq : processNode f stb q.2 = processList (visitL f st q.2) stb := by
        rw [IH stb q.2, visitL_congr f h]
      rw [hq]
      have h2 : NfOnly st (processList (visitL f st q.2) stb) :=
        nfOnly_trans h (nfOnly_processList _ _)
      rw [ih st _ h2]
      rw [foldl_append_eq_join, foldl_append_eq_join, List.nil_append,
        List.nil_append, ← processList_append]

theorem processNode_eq_visit :
    ∀ (f : Nat) (st : SuffixTree) (v : Nat),
      processNode f st v = processList (visitL f st v) st := by
  intro f
  induction f with
  | zero => intro st v; rfl
  | succ f ih =>
      intro st v
      show (getI (processBody st v) v).ichildren.foldl
          (fun st2 p => processNode f st2 p.2) (processBody st v)
        = processList (visitL (f + 1) st v) st
      rw [nfOnly_ich (nfOnly_processBody st v) v]
      rw [foldl_processNode_eq f ih _ st _ (nfOnly_processBody st v)]
      have hv : visitL (f + 1) st v
          = v :: (getI st v).ichildren.foldl (fun acc p => acc ++ visitL f st p.2) [] := rfl
      rw [hv]
      simp [processList]

theorem allNf_fst_eq_processList (st : SuffixTree) :
    (all_nf st).1 = processList (visitOrder st) st := by
  show (getI st 0).ichildren.foldl
      (fun s p => processNode (st.nodes.length + 1) s p.2) st
    = processList (visitOrder st) st
  rw [foldl_processNode_eq (st.nodes.length + 1)
    (processNode_eq_visit (st.nodes.length + 1)) _ st st (nfOnly_refl st)]
  rfl

/-! ### The nf counter evolution of the accumulation pass -/

theorem u32m_pos : 0 < U32M := by norm_num [U32M]

theorem nf_modifyNf_self (st : SuffixTree) (i : Nat) (f : Nat → Nat)
    (h : i < st.nodes.length) :
    (getI (modifyNf st i f) i).nf = f (getI st i).nf := by
  unfold modifyNf setI getI
  rw [getD_set_self, if_pos h]

theorem nf_modifyNf_ne (st : SuffixTree) (i j : Nat) (f : Nat → Nat) (h : i ≠ j) :
    (getI (modifyNf st i f) j).nf = (getI st j).nf := by
  unfold modifyNf setI getI
  rw [getD_set_of_ne _ h]

theorem decFold_nf (S j : Nat) :
    ∀ (L : List (Nat × Nat)) (stb : SuffixTree), (getI stb j).nf < U32M →
      (getI (L.foldl (fun st2 p =>
          if containsA (getI st2 S).lchildren p.1
          then modifyNf st2 S (fun nf => (nf + (U32M - 1)) % U32M)
          else st2) stb) j).nf
        = ((getI stb j).nf
            + (if S = j
               then (U32M - 1) * L.countP (fun p => containsA (getI stb S).lchildren p.1)
               else 0)) % U32M := by
  intro L
  induction L with
  | nil =>
      intro stb h
      simp [Nat.mod_eq_of_lt h]
  | cons p t ih =>
      intro stb h
      simp only [List.foldl_cons, List.countP_cons]
      by_cases hc : containsA (getI stb S).lchildren p.1
      · rw [if_pos hc]
        have hshape : NfOnly stb (modifyNf stb S (fun nf => (nf + (U32M - 1)) % U32M)) :=
          nfOnly_modifyNf stb S _
        have hlch : (getI (modifyNf stb S (fun nf => (nf + (U32M - 1)) % U32M)) S).lchildren
            = (getI stb S).lchildren := nfOnly_lch hshape S
        have hSin : S < stb.nodes.length := by
          refine lchildren_ne_nil_lt stb S (fun hnil => ?_)
          rw [hnil] at hc
          simp [containsA, lookupA] at hc
        by_cases hSj : S = j
        · subst hSj
          have hnf2 : (getI (modifyNf stb S (fun nf => (nf + (U32M - 1)) % U32M)) S).nf
              = ((getI stb S).nf + (U32M - 1)) % U32M := nf_modifyNf_self stb S _ hSin
          have h2 : (getI (modifyNf stb S (fun nf => (nf + (U32M - 1)) % U32M)) S).nf < U32M := by
            rw [hnf2]; exact Nat.mod_lt _ u32m_pos
          rw [ih _ h2, hlch, hnf2, if_pos rfl, if_pos rfl, Nat.mod_add_mod, hc]
          have hw : ∀ c : Nat,
              (getI stb S).nf + (U32M - 1) + (U32M - 1) * c
                = (getI stb S).nf + (U32M - 1) * (c + (if true = true then 1 else 0)) := by
            intro c
            simp [Nat.mul_add]
            ring
          rw [hw]
        · have hnfj : (getI (modifyNf stb S (fun nf => (nf + (U32M - 1)) % U32M)) j).nf
              = (getI stb j).nf := nf_modifyNf_ne stb S j _ hSj
          rw [ih _ (by rw [hnfj]; exact h), hlch, hnfj, if_neg hSj, if_neg hSj]
      · rw [if_neg hc]
        rw [ih _ h]
        by_cases hSj : S = j
        · subst hSj
          rw [if_pos rfl, if_pos rfl]
          simp [hc]
        · rw [if_neg hSj, if_neg hSj]

theorem contrib_congr {st st2 : SuffixTree} (h : NfOnly st st2) (j v : Nat) :
    contrib st2 j v = contrib st j v := by
  unfold contrib decCnt
  rw [nfOnly_lch h j, nfOnly_lch h v, nfOnly_slink h v]

theorem processBody_nf (st : SuffixTree) (v j : Nat) (h : (getI st j).nf < U32M) :
    (getI (processBody st v) j).nf = ((getI st j).nf + contrib st j v) % U32M := by
  unfold processBody
  by_cases he : (getI st v).lchildren.isEmpty
  · rw [if_pos he]
    have hnil : (getI st v).lchildren = [] := by
      simpa using he
    have hcontrib : contrib st j v = 0 := by
      unfold contrib decCnt
      rw [hnil]
      by_cases hvj : v = j
      · subst hvj
        rw [if_pos rfl, if_pos hnil]
        simp
      · rw [if_neg hvj]
        simp
    rw [hcontrib, Nat.add_zero, Nat.mod_eq_of_lt h]
  · rw [if_neg he]
    have hne : (getI st v).lchildren ≠ [] := by
      simpa using he
    have hv : v < st.nodes.length := lchildren_ne_nil_lt st v hne
    have hshape : NfOnly st
        (modifyNf st v (fun nf => (nf + (getI st v).lchildren.length) % U32M)) :=
      nfOnly_modifyNf st v _
    unfold processDecs
    rw [nfOnly_slink hshape v, nfOnly_lch hshape v]
    cases hsl : (getI st v).slink with
    | none =>
        have hcontrib : contrib st j v
            = if v = j then (getI st j).lchildren.length else 0 := by
          unfold contrib decCnt
          rw [hsl]
          by_cases hvj : v = j
          · subst hvj
            rw [if_pos rfl, if_pos rfl, if_neg (fun hx => Option.noConfusion hx)]
            rw [if_neg hne]
            try simp
          · rw [if_neg hvj, if_neg hvj, if_neg (fun hx => Option.noConfusion hx)]
            try simp
        rw [hcontrib]
        by_cases hvj : v = j
        · subst hvj
          rw [nf_modifyNf_self st v _ hv, if_pos rfl]
        · rw [nf_modifyNf_ne st v j _ hvj, if_neg hvj, Nat.add_zero, Nat.mod_eq_of_lt h]
    | some S =>
        have hnfj : (getI (modifyNf st v (fun nf => (nf + (getI st v).lchildren.length) % U32M)) j).nf
            = if v = j then ((getI st j).nf + (getI st j).lchildren.length) % U32M
              else (getI st j).nf := by
          by_cases hvj : v = j
          · subst hvj
            rw [if_pos rfl, nf_modifyNf_self st v _ hv]
          · rw [if_neg hvj, nf_modifyNf_ne st v j _ hvj]
        have hjlt : (getI (modifyNf st v (fun nf => (nf + (getI st v).lchildren.length) % U32M)) j).nf < U32M := by
          rw [hnfj]
          by_cases hvj : v = j
          · rw [if_pos hvj]; exact Nat.mod_lt _ u32m_pos
          · rw [if_neg hvj]; exact h
        rw [decFold_nf S j _ _ hjlt]
        rw [nfOnly_lch hshape S, hnfj]
        have hcnt : (getI st v).lchildren.countP
            (fun p => containsA (getI st S).lchildren p.1) = decCnt st v j
            ∨ S ≠ j := by
          by_cases hSj : S = j
          · subst hSj; exact Or.inl rfl
          · exact Or.inr hSj
        have hcontrib : contrib st j v
            = (if v = j then (getI st j).lchildren.length else 0)
              + (if S = j then (U32M - 1) * decCnt st v j else 0) := by
          unfold contrib
          congr 1
          · by_cases hvj : v = j
            · subst hvj
              rw [if_pos rfl, if_pos rfl, if_neg hne]
            · rw [if_neg hvj, if_neg hvj]
          · rw [hsl]
            by_cases hSj : S = j
            · subst hSj
              rw [if_pos rfl, if_pos rfl]
            · rw [if_neg (fun hx => hSj (Option.some.inj hx)), if_neg hSj]
        rw [hcontrib]
        by_cases hvj : v = j
        · subst hvj
          rw [if_pos rfl, if_pos rfl, Nat.mod_add_mod]
          by_cases hSv : S = v
          · subst hSv
            rw [if_pos rfl, if_pos rfl]
            have : decCnt st S S = (getI st S).lchildren.countP
                (fun p => containsA (getI st S).lchildren p.1) := rfl
            rw [← this, Nat.add_assoc]
          · rw [if_neg hSv, if_neg hSv, Nat.add_zero, Nat.add_zero]
        · rw [if_neg hvj, if_neg hvj, Nat.zero_add]
          by_cases hSj : S = j
          · subst hSj
            rw [if_pos rfl, if_pos rfl]
            have : decCnt st v S = (getI st v).lchildren.countP
                (fun p => containsA (getI st S).lchildren p.1) := rfl
            rw [← this]
          · rw [if_neg hSj, if_neg hSj]
            try simp

theorem processList_nf :
    ∀ (L : List Nat) (st : SuffixTree) (j : Nat), (getI st j).nf < U32M →
      (getI (processList L st) j).nf
        = ((getI st j).nf + (L.map (contrib st j)).sum) % U32M := by
  intro L
  induction L with
  | nil =>
      intro st j h
      simp [processList, Nat.mod_eq_of_lt h]
  | cons v t ih =>
      intro st j h
      have hb := processBody_nf st v j h
      have h2 : (getI (processBody st v) j).nf < U32M := by
        rw [hb]; exact Nat.mod_lt _ u32m_pos
      have hstep : processList (v :: t) st = processList t (processBody st v) := by
        simp [processList]
      rw [hstep, ih _ j h2, hb, Nat.mod_add_mod]
      have hmap : t.map (contrib (processBody st v) j) = t.map (contrib st j) :=
        List.map_congr_left (fun w _ => contrib_congr (nfOnly_processBody st v) j w)
      rw [hmap]
      simp [Nat.add_assoc]

/-! ### Sum decompositions -/

theorem sum_map_addf {α : Type} (f g : α → Nat) :
    ∀ L : List α, (L.map (fun x => f x + g x)).sum = (L.map f).sum + (L.map g).sum := by
  intro L
  induction L with
  | nil => rfl
  | cons x t ih =>
      simp only [List.map_cons, List.sum_cons, ih]
      omega

theorem sum_map_ite_nodup {α : Type} [DecidableEq α] (j : α) (B : Nat) :
    ∀ L : List α, L.Nodup → j ∈ L →
      (L.map (fun v => if v = j then B else 0)).sum = B := by
  intro L
  induction L with
  | nil => intro _ hm; simp at hm
  | cons x t ih =>
      intro hnd hm
      have hnd2 := List.nodup_cons.mp hnd
      simp only [List.map_cons, List.sum_cons]
      rcases List.mem_cons.mp hm with hx | hm2
      · subst hx
        rw [if_pos rfl]
        have hz : (t.map (fun v => if v = j then B else 0)).sum = 0 := by
          refine List.sum_eq_zero (fun y hy => ?_)
          rcases List.mem_map.mp hy with ⟨w, hw, hwy⟩
          have hwj : w ≠ j := fun hwx => hnd2.1 (hwx ▸ hw)
          rw [← hwy, if_neg hwj]
        rw [hz]
        omega
      · have hx : x ≠ j := fun hxj => hnd2.1 (hxj ▸ hm2)
        rw [if_neg hx, ih hnd2.2 hm2, Nat.zero_add]

theorem sum_map_ite_bool {α : Type} (q : α → Bool) (g : α → Nat) :
    ∀ L : List α,
      (L.map (fun v => if q v then g v else 0)).sum = ((L.filter q).map g).sum := by
  intro L
  induction L with
  | nil => rfl
  | cons x t ih =>
      cases hq : q x with
      | true => simp [List.filter_cons, hq, ih]
      | false => simp [List.filter_cons, hq, ih]

theorem sum_map_mulc {α : Type} (c : Nat) (g : α → Nat) :
    ∀ L : List α, (L.map (fun v => c * g v)).sum = c * (L.map g).sum := by
  intro L
  induction L with
  | nil => simp
  | cons x t ih =>
      simp only [List.map_cons, List.sum_cons, ih, Nat.mul_add]

theorem contrib_sum_decomp (st : SuffixTree) (S : Nat) (L : List Nat)
    (hnd : L.Nodup) (hmem : S ∈ L) :
    (L.map (contrib st S)).sum
      = (if (getI st S).lchildren = [] then 0 else (getI st S).lchildren.length)
        + (U32M - 1) *
          ((L.filter (fun v => decide ((getI st v).slink = some S))).map
            (fun v => decCnt st v S)).sum := by
  have hpt : ∀ v, contrib st S v
      = (if v = S then
          (if (getI st S).lchildren = [] then 0 else (getI st S).lchildren.length)
         else 0)
        + (if (getI st v).slink = some S then (U32M - 1) * decCnt st v S else 0) :=
    fun v => rfl
  calc (L.map (contrib st S)).sum
      = (L.map (fun v =>
          (if v = S then
            (if (getI st S).lchildren = [] then 0 else (getI st S).lchildren.length)
           else 0)
          + (if (getI st v).slink = some S then (U32M - 1) * decCnt st v S else 0))).sum := by
        rw [List.map_congr_left (fun v _ => hpt v)]
    _ = (if (getI st S).lchildren = [] then 0 else (getI st S).lchildren.length)
        + (U32M - 1) *
          ((L.filter (fun v => decide ((getI st v).slink = some S))).map
            (fun v => decCnt st v S)).sum := by
        rw [sum_map_addf]
        congr 1
        · exact sum_map_ite_nodup S _ L hnd hmem
        · have hconv : L.map (fun v =>
              if (getI st v).slink = some S then (U32M - 1) * decCnt st v S else 0)
              = L.map (fun v =>
                if (fun w => decide ((getI st w).slink = some S)) v
                then (U32M - 1) * decCnt st v S else 0) := by
            refine List.map_congr_left (fun v _ => ?_)
            by_cases hv : (getI st v).slink = some S
            · simp [hv]
            · simp [hv]
          rw [hconv, sum_map_ite_bool (fun w => decide ((getI st w).slink = some S))
            (fun v => (U32M - 1) * decCnt st v S) L]
          rw [sum_map_mulc]

/-! ### The wrapping decrement loops of single_nf -/

theorem fold_dec_pure (P : Nat × Nat → Bool) :
    ∀ (L : List (Nat × Nat)) (n : Nat), n < U32M →
      L.foldl (fun nf p => if P p then (nf + (U32M - 1)) % U32M else nf) n
        = (n + (U32M - 1) * L.countP P) % U32M := by
  intro L
  induction L with
  | nil =>
      intro n h
      simp [Nat.mod_eq_of_lt h]
  | cons p t ih =>
      intro n h
      simp only [List.foldl_cons, List.countP_cons]
      by_cases hp : P p
      · rw [if_pos hp, ih _ (Nat.mod_lt _ u32m_pos), Nat.mod_add_mod, hp]
        congr 1
        have hexp : (U32M - 1) * (t.countP P + (if true = true then 1 else 0))
            = (U32M - 1) * t.countP P + (U32M - 1) := by
          simp [Nat.mul_add]
        rw [hexp]
        omega
      · rw [if_neg hp, ih _ h]
        have : P p = false := by simpa using hp
        simp [this]

theorem single_fold (st : SuffixTree) (S : Nat) :
    ∀ (W : List Nat) (n : Nat), n < U32M →
      W.foldl (fun nf xS =>
        (getI st xS).lchildren.foldl (fun nf p =>
          if containsA (getI st S).lchildren p.1
          then (nf + (U32M - 1)) % U32M else nf) nf) n
        = (n + (U32M - 1) * (W.map (fun v => decCnt st v S)).sum) % U32M := by
  intro W
  induction W with
  | nil =>
      intro n h
      simp [Nat.mod_eq_of_lt h]
  | cons x t ih =>
      intro n h
      simp only [List.foldl_cons]
      rw [fold_dec_pure (fun p => containsA (getI st S).lchildren p.1) _ n h]
      rw [ih _ (Nat.mod_lt _ u32m_pos), Nat.mod_add_mod]
      simp only [List.map_cons, List.sum_cons]
      congr 1
      have : decCnt st x S
          = (getI st x).lchildren.countP (fun p => containsA (getI st S).lchildren p.1) := rfl
      rw [this, Nat.mul_add, Nat.add_assoc]

/-! ### Reduction lemmas for single_nf and helpers -/

theorem getD_mem_of_lt {α : Type} (l : List α) (d : α) :
    ∀ {i : Nat}, i < l.length → l.getD i d ∈ l := by
  induction l with
  | nil => intro i h; simp at h
  | cons x t ih =>
      intro i h
      cases i with
      | zero => simp [List.getD]
      | succ n =>
          have hm : t.getD n d ∈ t := ih (by simpa using h)
          simpa [List.getD] using Or.inr hm

theorem nf_getI_zero (st : SuffixTree) (hnf0 : ∀ n ∈ st.nodes, n.nf = 0) (j : Nat) :
    (getI st j).nf = 0 := by
  by_cases hj : j < st.nodes.length
  · exact hnf0 _ (getD_mem_of_lt st.nodes defaultNode hj)
  · unfold getI
    rw [getD_default_of_le _ _ (by omega)]
    rfl

theorem single_nf_eq_body (st : SuffixTree) (s : List Nat) (S : Nat)
    (hfind : find_internal_node st s = (some S, 0)) :
    single_nf st s =
      (if ((getI st S).lchildren.length % U32M) = 0 then 0
       else (getI st S).wlinks.foldl (fun nf xS =>
          (getI st xS).lchildren.foldl (fun nf p =>
            if containsA (getI st S).lchildren p.1
            then (nf + (U32M - 1)) % U32M else nf) nf)
          ((getI st S).lchildren.length % U32M)) := by
  unfold single_nf
  rw [hfind]
  simp

theorem single_nf_zero_of_none (st : SuffixTree) (s : List Nat) (r : Nat)
    (hfind : find_internal_node st s = (none, r)) : single_nf st s = 0 := by
  unfold single_nf
  rw [hfind]

theorem single_nf_zero_of_rem (st : SuffixTree) (s : List Nat) (S r : Nat)
    (hfind : find_internal_node st s = (some S, r)) (hr : r ≠ 0) :
    single_nf st s = 0 := by
  unfold single_nf
  rw [hfind]
  simp [hr]

theorem decCnt_of_empty (st : SuffixTree) (v S : Nat)
    (h : (getI st S).lchildren = []) : decCnt st v S = 0 := by
  unfold decCnt
  rw [h]
  refine List.countP_eq_zero.mpr (fun a _ => ?_)
  simp [containsA, lookupA]

/-! ### Claim theorems -/

/-- C2 (amended): on a tree whose nf counters are all zero, whose
accumulation-pass visit order lists the locus exactly once, and whose
Weiner-link list at the locus is a permutation of the suffix-link
preimages among the visited nodes (the link coherence a built tree
provides), single_nf of a query whose locus is such an internal node
with zero remainder equals the nf value the bulk accumulation pass of
all_nf assigns to that node; and single_nf returns 0 whenever the locus
is not an internal node or the remainder is nonzero.  (The claim as
literally stated fails at the root: see the counterexample theorem.) -/
theorem single_nf_matches_all_nf (st : SuffixTree) (s : List Nat)
    (hnf0 : ∀ n ∈ st.nodes, n.nf = 0) :
    (∀ S, find_internal_node st s = (some S, 0) →
      S ∈ visitOrder st → (visitOrder st).Nodup →
      (getI st S).wlinks.Perm
        ((visitOrder st).filter (fun v => decide ((getI st v).slink = some S))) →
      (getI st S).lchildren.length < U32M →
      single_nf st s = (getI (all_nf st).1 S).nf) ∧
    (∀ r, find_internal_node st s = (none, r) → single_nf st s = 0) ∧
    (∀ S r, find_internal_node st s = (some S, r) → r ≠ 0 → single_nf st s = 0) := by
  refine ⟨?_, fun r h => single_nf_zero_of_none st s r h,
    fun S r h hr => single_nf_zero_of_rem st s S r h hr⟩
  intro S hfind hmem hnd hperm hsize
  have hnfS0 : (getI st S).nf = 0 := nf_getI_zero st hnf0 S
  have hbulk : (getI (all_nf st).1 S).nf
      = ((getI st S).nf + ((visitOrder st).map (contrib st S)).sum) % U32M := by
    rw [allNf_fst_eq_processList]
    exact processList_nf (visitOrder st) st S (by rw [hnfS0]; exact u32m_pos)
  rw [hbulk, hnfS0, Nat.zero_add]
  rw [contrib_sum_decomp st S (visitOrder st) hnd hmem]
  have hD : (((visitOrder st).filter
        (fun v => decide ((getI st v).slink = some S))).map
          (fun v => decCnt st v S)).sum
      = ((getI st S).wlinks.map (fun v => decCnt st v S)).sum :=
    (List.Perm.sum_eq (hperm.map (fun v => decCnt st v S))).symm
  rw [hD]
  rw [single_nf_eq_body st s S hfind]
  by_cases hlc : (getI st S).lchildren = []
  · have hz : ((getI st S).wlinks.map (fun v => decCnt st v S)).sum = 0 := by
      refine List.sum_eq_zero (fun y hy => ?_)
      rcases List.mem_map.mp hy with ⟨w, _, hwy⟩
      rw [← hwy, decCnt_of_empty st w S hlc]
    rw [hz]
    simp [hlc]
  · have hlen : (getI st S).lchildren.length % U32M = (getI st S).lchildren.length :=
      Nat.mod_eq_of_lt hsize
    have hlen0 : (getI st S).lchildren.length ≠ 0 := by
      intro h0
      exact hlc (List.length_eq_zero.mp h0)
    rw [hlen, if_neg hlen0, if_neg hlc]
    exact single_fold st S (getI st S).wlinks _ hsize

theorem containsA_eq_keys (l : List (Nat × Nat)) (k : Nat) :
    containsA l k = (keysOf l).contains k := by
  induction l with
  | nil => rfl
  | cons p t ih =>
      unfold containsA lookupA
      unfold containsA at ih
      by_cases h : p.1 = k
      · simp [keysOf, List.contains_cons, h]
      · have hne : ¬(k == p.1) = true := by
          simp
          exact fun hk => h hk.symm
        simp only [keysOf, List.map_cons, List.contains_cons]
        rw [if_neg h, ih]
        simp [keysOf]
        intro hk
        exact absurd hk.symm h

/-- C1: whenever the locus of a query s is an internal node S with zero
remainder (s is branching), and the tree obeys the map and link
discipline of the source (distinct keys per child map, duplicate-free
Weiner-link list, fewer than 2^32 leaf children) with no more
cancelling pairs than leaf children (no uint32_t wrap), single_nf
returns exactly the net frequency of the specification formula: the
number of distinct bytes keying leaf children of S minus one per pair
(xS, y) with xS in S.weiner_links and y keying a leaf child of both xS
and S. -/
theorem single_nf_eq_nfFormula (st : SuffixTree) (s : List Nat) (S : Nat)
    (hfind : find_internal_node st s = (some S, 0))
    (hkS : (keysOf (getI st S).lchildren).Nodup)
    (hkx : ∀ x ∈ (getI st S).wlinks, (keysOf (getI st x).lchildren).Nodup)
    (hw : (getI st S).wlinks.Nodup)
    (hsize : (getI st S).lchildren.length < U32M)
    (hle : ((getI st S).wlinks.map (fun v => decCnt st v S)).sum
      ≤ (getI st S).lchildren.length) :
    single_nf st s = nfFormula st S := by
  have hformula : nfFormula st S
      = (getI st S).lchildren.length
        - ((getI st S).wlinks.map (fun v => decCnt st v S)).sum := by
    unfold nfFormula
    rw [List.dedup_eq_self.mpr hkS, List.dedup_eq_self.mpr hw]
    have hklen : (keysOf (getI st S).lchildren).length
        = (getI st S).lchildren.length := by
      unfold keysOf
      rw [List.length_map]
    rw [hklen]
    congr 1
    refine congrArg List.sum (List.map_congr_left (fun x hx => ?_))
    rw [List.dedup_eq_self.mpr (hkx x hx)]
    have h1 : ((keysOf (getI st x).lchildren).filter
        (fun y => (keysOf (getI st S).lchildren).contains y)).length
        = (keysOf (getI st x).lchildren).countP
            (fun y => (keysOf (getI st S).lchildren).contains y) :=
      (List.countP_eq_length_filter _ _).symm
    rw [h1]
    unfold keysOf
    rw [List.countP_map]
    unfold decCnt
    have hpred : ((fun y => ((getI st S).lchildren.map Prod.fst).contains y) ∘ Prod.fst)
        = (fun p : Nat × Nat => containsA (getI st S).lchildren p.1) := by
      funext p
      simp [Function.comp, containsA_eq_keys, keysOf]
    rw [hpred]
  rw [hformula, single_nf_eq_body st s S hfind]
  by_cases hlc : (getI st S).lchildren = []
  · have hz : ((getI st S).wlinks.map (fun v => decCnt st v S)).sum = 0 := by
      refine List.sum_eq_zero (fun y hy => ?_)
      rcases List.mem_map.mp hy with ⟨w, _, hwy⟩
      rw [← hwy, decCnt_of_empty st w S hlc]
    rw [hz]
    simp [hlc]
  · have hlen : (getI st S).lchildren.length % U32M = (getI st S).lchildren.length :=
      Nat.mod_eq_of_lt hsize
    have hlen0 : (getI st S).lchildren.length ≠ 0 := by
      intro h0
      exact hlc (List.length_eq_zero.mp h0)
    rw [hlen, if_neg hlen0]
    rw [single_fold st S (getI st S).wlinks _ hsize]
    have h32 : U32M = 4294967296 := rfl
    rw [h32] at hsize ⊢
    omega

/-! ### Termination of the locator (claim C9) -/

theorem lookupA_mem : ∀ (l : List (Nat × Nat)) (k v : Nat),
    lookupA l k = some v → (k, v) ∈ l := by
  intro l
  induction l with
  | nil => intro k v h; simp [lookupA] at h
  | cons p t ih =>
      intro k v h
      unfold lookupA at h
      by_cases hp : p.1 = k
      · rw [if_pos hp] at h
        have hv : p.2 = v := Option.some.inj h
        subst hp
        subst hv
        simp
      · rw [if_neg hp] at h
        exact List.mem_cons_of_mem p (ih k v h)

theorem findAux_isSome (st : SuffixTree) (s : List Nat)
    (hpos : ∀ j, j < st.nodes.length → ∀ p ∈ (getI st j).ichildren,
      (getI st p.2).start < (getI st p.2).stop) :
    ∀ (f i node : Nat), s.length < f + i → 0 < f →
      (findAux st s f node i).isSome = true := by
  intro f
  induction f with
  | zero => intro i node _ h0; omega
  | succ f ih =>
      intro i node h h0
      unfold findAux
      by_cases hi : s.length ≤ i
      · rw [if_pos hi]; rfl
      · rw [if_neg hi]
        cases hcl : lookupA (getI st node).ichildren (s.getD i 0) with
        | none =>
            dsimp only
            by_cases hc : containsA (getI st node).lchildren (s.getD i 0)
            · rw [if_pos hc]; rfl
            · rw [if_neg hc]; rfl
        | some child =>
            dsimp only
            have hnode : node < st.nodes.length := by
              by_contra hn
              have hd : getI st node = defaultNode :=
                getD_default_of_le _ _ (by omega)
              rw [hd] at hcl
              simp [defaultNode, lookupA] at hcl
            have hmem := lookupA_mem _ _ _ hcl
            have hedge : (getI st child).start < (getI st child).stop :=
              hpos node hnode (s.getD i 0, child) hmem
            have hel : 1 ≤ edge_length_internal st child := by
              unfold edge_length_internal
              omega
            by_cases hcmp : (s.drop i).take (min (edge_length_internal st child) (s.length - i))
                = (st.txt.drop (getI st child).start).take
                    (min (edge_length_internal st child) (s.length - i))
            · rw [if_pos hcmp]
              exact ih (i + edge_length_internal st child) child (by omega) (by omega)
            · rw [if_neg hcmp]; rfl

/-- C9: find_internal_node terminates with its fuel bound |s| + 1 on
every tree in which each internal child edge has positive length (every
internal node created by an edge split has end strictly greater than
start): each loop iteration that does not return advances the matched
index i by the followed internal child's edge length, which is at least
one. -/
theorem find_internal_node_terminates (st : SuffixTree) (s : List Nat)
    (hpos : ∀ j, j < st.nodes.length → ∀ p ∈ (getI st j).ichildren,
      (getI st p.2).start < (getI st p.2).stop) :
    (findAux st s (s.length + 1) 0 0).isSome = true :=
  findAux_isSome st s hpos (s.length + 1) 0 0 (by omega) (by omega)

/-! ### Concrete claim theorems and witnesses -/

/-- C1 witness: the locus of "a" in the tree of "aaaa$" is internal node
3 with zero remainder, and single_nf equals the specification formula
there (both are 0: one unique right extension, cancelled by the pair
with xS = "aa"). -/
theorem single_nf_eq_nfFormula_witness :
    single_nf (buildSuffixTree txtAAAA) [97] = nfFormula (buildSuffixTree txtAAAA) 3 :=
  single_nf_eq_nfFormula (buildSuffixTree txtAAAA) [97] 3 (by decide) (by decide)
    (by decide) (by decide) (by decide) (by decide)

/-- C2 witness: on the tree of "aaaa$" the query "a" has the non-root
internal locus 3, and single_nf("a") equals the nf the accumulation
pass of all_nf leaves at node 3. -/
theorem single_nf_matches_all_nf_witness :
    single_nf (buildSuffixTree txtAAAA) [97]
      = (getI (all_nf (buildSuffixTree txtAAAA)).1 3).nf :=
  (single_nf_matches_all_nf (buildSuffixTree txtAAAA) [97] (by decide)).1 3
    (by decide) (by decide) (by decide) (by decide) (by decide)

/-- C2 counterexample: for T = "aaaa$" and the query s = "" the locus is
the root (an internal node, zero remainder, so s is branching by the
claim's taxonomy), single_nf returns 0, but the bulk accumulation pass
leaves the root's nf at 2^32 - 1: the root receives a wrapped decrement
and never the initial bump, so the two values differ. -/
theorem single_nf_vs_all_nf_at_root :
    find_internal_node (buildSuffixTree txtAAAA) [] = (some 0, 0) ∧
    single_nf (buildSuffixTree txtAAAA) [] = 0 ∧
    (getI (all_nf (buildSuffixTree txtAAAA)).1 0).nf = 4294967295 ∧
    single_nf (buildSuffixTree txtAAAA) []
      ≠ (getI (all_nf (buildSuffixTree txtAAAA)).1 0).nf := by
  refine ⟨by decide, by decide, by decide, by decide⟩

/-- C4: find_internal_node compares no bytes on leaf edges, so for
T = "abc$" and s = "ax" it returns {none, 1} ("s occurs exactly once")
although "ax" does not occur in T at all, contradicting both the claim
and the function's own documentation comment. -/
theorem find_internal_node_false_unique :
    find_internal_node (buildSuffixTree txtABC) [97, 120] = (none, 1) ∧
      occursIn [97, 120] txtABC = false := by
  refine ⟨by decide, by decide⟩

/-- C5: single_nf of the empty query is not 0: the locator returns the
root with zero remainder and single_nf proceeds to count the root's
leaf children; on T = "abc$" it returns 4. -/
theorem single_nf_empty_query_nonzero :
    single_nf (buildSuffixTree txtABC) [] = 4 := by decide

/-- C6 counterexample: on T = "aaaa$" the bulk computation does not
emit the single pair ("a", 1). -/
theorem all_nf_aaaa_not_a_one :
    (all_nf (buildSuffixTree txtAAAA)).2 ≠ [([97], 1)] := by decide

/-- C6 (amended): on T = "aaaa$" the bulk computation emits exactly one
pair, namely ("aaa", 2): nodes "a" and "aa" end with nf 0 (their single
unique right extension "$" is cancelled through the Weiner/suffix
links) and node "aaa" keeps nf 2. -/
theorem all_nf_aaaa_reports_aaa_two :
    (all_nf (buildSuffixTree txtAAAA)).2 = [([97, 97, 97], 2)] := by decide

/-- C7: on the text "#abcdabybcdbxbcyabcd$" of src/main.cpp,
single_nf("abcd") returns 2. -/
theorem single_nf_abcd_main :
    single_nf (buildSuffixTree txtMain) [97, 98, 99, 100] = 2 := by decide

/-- C8: all_nf neither rejects repeated invocation nor resets the nf
fields: after one invocation on the tree of "aaaa$" the internal nf
values (root, "aaa", "aa", "a") are [2^32 - 1, 2, 0, 0], after a second
invocation they are [2^32 - 2, 4, 0, 0], so a repeated invocation does
not leave the nf values of a single invocation. -/
theorem all_nf_twice_not_idempotent :
    ((all_nf (buildSuffixTree txtAAAA)).1.nodes.map InternalNode.nf
        = [4294967295, 2, 0, 0]) ∧
    ((all_nf (all_nf (buildSuffixTree txtAAAA)).1).1.nodes.map InternalNode.nf
        = [4294967294, 4, 0, 0]) ∧
    ((all_nf (all_nf (buildSuffixTree txtAAAA)).1).1.nodes.map InternalNode.nf
        ≠ (all_nf (buildSuffixTree txtAAAA)).1.nodes.map InternalNode.nf) := by
  refine ⟨by decide, by decide, by decide⟩

/-- C9 witness: on the tree built from "aaaa$" every internal child
edge has positive length, and the locator run on "aa" with its fuel
bound terminates. -/
theorem find_internal_node_terminates_witness :
    (findAux (buildSuffixTree txtAAAA) [97, 97] ([97, 97].length + 1) 0 0).isSome = true :=
  find_internal_node_terminates (buildSuffixTree txtAAAA) [97, 97] (by decide)
